import Mathlib

/-!
# Verification of the NIFTY 50 portfolio optimizer (`nifty50.py`)

A shallow embedding of the allocation pipeline of `nifty50.py` over exact
rationals (Python floats approximate real arithmetic; all the properties of
interest are stated over ℚ).  The pipeline is: score the stock table for the
chosen risk profile, sort descending by score, look up live prices (dropping
non-positive or missing quotes), apply the minimum-investment guardrail,
restrict to the top-20 priced stocks, run the diversified selection, and
distribute the cash budget in two passes.

External collaborators (CSV loading, the Yahoo price fetch, Streamlit
rendering) are modelled as inputs: the stock table is a `List StockRow`, the
raw price fetch is a `String → Option ℚ`, and the sector file is a
`String → Option String`.
-/

namespace Nifty50

/-- One row of the (pre-cleaned) fundamentals table `nifty50stats.csv`:
symbol plus the four metrics used by `score_stock`. -/
structure StockRow where
  symbol : String
  roce : ℚ
  divYld : ℚ
  qtrSalesVar : ℚ
  qtrProfitVar : ℚ
  deriving DecidableEq, Repr

/-- The `risk_appetite` selectbox: "Low" / "Moderate" / "High". -/
inductive Risk where
  | low
  | moderate
  | high
  deriving DecidableEq, Repr

/-- The `experience_level` selectbox: "Beginner" / "Intermediate" / "Advanced". -/
inductive Experience where
  | beginner
  | intermediate
  | advanced
  deriving DecidableEq, Repr

/-- `score_stock(row, risk)` (lines 47-53): the profile-dependent weighted
linear combination of the four fundamental metrics. -/
def score_stock (row : StockRow) (risk : Risk) : ℚ :=
  match risk with
  | .low => row.roce * 0.4 + row.divYld * 0.3 + row.qtrSalesVar * 0.2 + row.qtrProfitVar * 0.1
  | .moderate => row.qtrSalesVar * 0.3 + row.qtrProfitVar * 0.3 + row.roce * 0.2 + row.divYld * 0.2
  | .high => row.qtrProfitVar * 0.4 + row.qtrSalesVar * 0.3 + row.roce * 0.2 + row.divYld * 0.1

/-- Insert a row into a list already sorted by descending `Risk Score`,
keeping it before any strictly-smaller score.  Together with
`sortByScoreDesc` this models `sort_values(by='Risk Score', ascending=False)`
(line 56): a deterministic order that is descending in the score. -/
def insertByScoreDesc (risk : Risk) (r : StockRow) : List StockRow → List StockRow
  | [] => [r]
  | x :: xs =>
    if score_stock x risk ≤ score_stock r risk then r :: x :: xs
    else x :: insertByScoreDesc risk r xs

/-- Sort the stock table by descending `Risk Score` (line 56). -/
def sortByScoreDesc (risk : Risk) : List StockRow → List StockRow
  | [] => []
  | x :: xs => insertByScoreDesc risk x (sortByScoreDesc risk xs)

/-- The `live_prices` dictionary (lines 62-69): a symbol gets an entry only
when the raw fetch produced a strictly positive close price. -/
def livePrices (raw : String → Option ℚ) (s : String) : Option ℚ :=
  match raw s with
  | some p => if 0 < p then some p else none
  | none => none

/-- Price of a symbol as read out of `live_prices` in the allocation code
(`live_prices[symbol]`); the default 0 is never hit on the paths the code
takes, because every allocated symbol passed the eligibility filter. -/
def priceOf (raw : String → Option ℚ) (s : String) : ℚ :=
  (livePrices raw s).getD 0

/-- `top_5_prices` (lines 71-72): the live prices of those of the first five
ranked stocks that have a usable quote. -/
def top5Prices (raw : String → Option ℚ) (sorted : List StockRow) : List ℚ :=
  (sorted.take 5).filterMap (fun r => livePrices raw r.symbol)

/-- `avg_top5_price` (line 73): `np.mean(top_5_prices) if top_5_prices else 0`. -/
def avgTop5 (raw : String → Option ℚ) (sorted : List StockRow) : ℚ :=
  let l := top5Prices raw sorted
  if l = [] then 0 else l.sum / l.length

/-- `min_required_investment` (line 74): mean of the top-5 usable prices times
5 times 1.1. -/
def minRequiredInvestment (stocks : List StockRow) (raw : String → Option ℚ) (risk : Risk) : ℚ :=
  avgTop5 raw (sortByScoreDesc risk stocks) * 5 * 1.1

/-- `eligible_stocks` (lines 80-81): the ranked stocks restricted to those
with a live price, truncated to the first 20. -/
def eligibleStocks (raw : String → Option ℚ) (sorted : List StockRow) : List StockRow :=
  (sorted.filter (fun r => (livePrices raw r.symbol).isSome)).take 20

/-- The per-profile cap on the number of selected stocks (line 95). -/
def stockCountCap : Risk → Nat
  | .low => 5
  | .moderate => 7
  | .high => 10

/-- `max_stock_weight` (line 83). -/
def maxStockWeight : Risk → ℚ
  | .low => 0.35
  | .moderate => 0.45
  | .high => 0.55

/-- `sector_mapping.get(symbol, 'N/A')` (lines 89, 115). -/
def sectorOf (sectors : String → Option String) (s : String) : String :=
  (sectors s).getD "N/A"

/-- The diversified-selection loop (lines 84-96).  `acc` is `target_stocks`,
`used` is `used_sectors`.  For Low risk a candidate whose sector was already
used is skipped; otherwise the candidate is appended, and the loop breaks as
soon as the count cap is reached. -/
def selectGo (risk : Risk) (sectors : String → Option String) :
    List StockRow → List StockRow → List String → List StockRow
  | [], acc, _ => acc
  | r :: rs, acc, used =>
    let sec := sectorOf sectors r.symbol
    if risk = Risk.low ∧ sec ∈ used then
      selectGo risk sectors rs acc used
    else if stockCountCap risk ≤ acc.length + 1 then
      acc ++ [r]
    else
      selectGo risk sectors rs (acc ++ [r]) (sec :: used)

/-- The diversified selection applied to a candidate pool, starting (as the
source does) from an empty `target_stocks` and an empty `used_sectors`. -/
def selectStocks (risk : Risk) (sectors : String → Option String)
    (pool : List StockRow) : List StockRow :=
  selectGo risk sectors pool [] []

/-- `target_stocks` for a full run: the selection loop applied to the
top-20 eligible pool. -/
def targetStocks (stocks : List StockRow) (raw : String → Option ℚ)
    (sectors : String → Option String) (risk : Risk) : List StockRow :=
  selectStocks risk sectors (eligibleStocks raw (sortByScoreDesc risk stocks))

/-- `total_score` (lines 85, 93): the sum of the risk scores of the selected
stocks. -/
def totalScoreOf (risk : Risk) (target : List StockRow) : ℚ :=
  (target.map (fun r => score_stock r risk)).sum

/-- Python's `round(x, 2)` on the amounts the code stores (display rounding
to two decimals; on paise-quantized amounts it is the identity, which is the
only case the code reaches with real currency prices). -/
def round2 (x : ℚ) : ℚ := ((round (x * 100) : ℤ) : ℚ) / 100

/-- One `portfolio` entry (lines 116-122): keys `Stock`, `Live Price ₹`,
`Qty`, `Total Invested ₹`, `Sector`. -/
structure Line where
  stock : String
  price : ℚ
  qty : ℤ
  total : ℚ
  sector : String
  deriving DecidableEq, Repr

/-- `sector_allocation[sector] = sector_allocation.get(sector, 0) + amt`
(line 123) and `sector_allocation[sector] += amt` (line 139), on an
insertion-ordered association list (the Python dict). -/
def bumpSector : List (String × ℚ) → String → ℚ → List (String × ℚ)
  | [], sec, amt => [(sec, amt)]
  | (s, v) :: rest, sec, amt =>
    if s = sec then (s, v + amt) :: rest else (s, v) :: bumpSector rest sec amt

/-- Pass 1 (lines 102-123): walk the selected stocks in order; weight is the
score share capped at `max_stock_weight`; the desired amount is additionally
capped at remaining cash; buy `floor(amount / price)` whole units, dropping
the stock when that is not positive. Returns
(`portfolio`, `remaining_cash`, `sector_allocation`). -/
def pass1 (raw : String → Option ℚ) (sectors : String → Option String) (risk : Risk)
    (inv totalScore : ℚ) :
    List StockRow → ℚ → List (String × ℚ) → List Line × ℚ × List (String × ℚ)
  | [], cash, sa => ([], cash, sa)
  | r :: rest, cash, sa =>
    let price := priceOf raw r.symbol
    let weight := min (score_stock r risk / totalScore) (maxStockWeight risk)
    let alloc := min (weight * inv) cash
    let qty : ℤ := Int.floor (alloc / price)
    if qty ≤ 0 then
      pass1 raw sectors risk inv totalScore rest cash sa
    else
      let cost := (qty : ℚ) * price
      let sec := sectorOf sectors r.symbol
      let res := pass1 raw sectors risk inv totalScore rest (cash - cost) (bumpSector sa sec cost)
      (⟨r.symbol, round2 price, qty, round2 cost, sec⟩ :: res.1, res.2.1, res.2.2)

/-- The inner loop of pass 2 (lines 129-139): one sweep over the surviving
portfolio, buying for each stock as many whole units as remaining cash
allows. -/
def sweep (raw : String → Option ℚ) :
    List Line → ℚ → List (String × ℚ) → List Line × ℚ × List (String × ℚ)
  | [], cash, sa => ([], cash, sa)
  | l :: ls, cash, sa =>
    let price := priceOf raw l.stock
    if price ≤ cash then
      let aqty : ℤ := Int.floor (cash / price)
      if 0 < aqty then
        let acost := (aqty : ℚ) * price
        let res := sweep raw ls (cash - acost) (bumpSector sa l.sector acost)
        ({ l with qty := l.qty + aqty, total := l.total + round2 acost } :: res.1, res.2.1, res.2.2)
      else
        let res := sweep raw ls cash sa
        (l :: res.1, res.2.1, res.2.2)
    else
      let res := sweep raw ls cash sa
      (l :: res.1, res.2.1, res.2.2)

/-- `min(live_prices[s['Stock']] for s in portfolio)` (line 127).  `none`
models the `ValueError` Python raises when `portfolio` is empty. -/
def minPortfolioPrice (raw : String → Option ℚ) (pf : List Line) : Option ℚ :=
  match pf.map (fun l => priceOf raw l.stock) with
  | [] => none
  | p :: ps => some (ps.foldl min p)

/-- Pass 2 (lines 125-139): one outer iteration per selected stock; each
iteration first evaluates the cheapest surviving price (crashing when the
portfolio is empty), breaks when cash is below it, and otherwise performs one
full inner sweep.  `none` is the uncaught `ValueError`. -/
def pass2 (raw : String → Option ℚ) :
    List StockRow → List Line → ℚ → List (String × ℚ) →
      Option (List Line × ℚ × List (String × ℚ))
  | [], pf, cash, sa => some (pf, cash, sa)
  | _ :: rest, pf, cash, sa =>
    match minPortfolioPrice raw pf with
    | none => none
    | some m =>
      if cash < m then some (pf, cash, sa)
      else
        let res := sweep raw pf cash sa
        pass2 raw rest res.1 res.2.1 res.2.2

/-- `portfolio_df['Total Invested ₹'].sum()` (line 146). -/
def totalInvested (pf : List Line) : ℚ := (pf.map Line.total).sum

/-- The final summary table (lines 188-199). -/
structure Summary where
  investmentAmount : ℚ
  totalInvestedAmt : ℚ
  unallocatedCash : ℚ
  numStocks : Nat
  riskProfile : Risk
  experienceLevel : Experience
  deriving DecidableEq, Repr

/-- The observable outcome of one submitted run: the insufficient-funds
early exit (line 76-78), the empty-portfolio message (lines 141-143), an
uncaught exception, or a rendered portfolio with its summary. -/
inductive Outcome where
  | insufficientFunds (minRequired : ℚ)
  | noAllocation
  | crash
  | success (portfolio : List Line) (sectorAlloc : List (String × ℚ))
      (leftover : ℚ) (summary : Summary)
  deriving DecidableEq, Repr

/-- The pass-1 state for a full run: pass 1 applied to the selected stocks,
starting from the full investment amount and empty sector totals. -/
def pass1Result (stocks : List StockRow) (raw : String → Option ℚ)
    (sectors : String → Option String) (risk : Risk) (inv : ℚ) :
    List Line × ℚ × List (String × ℚ) :=
  let target := targetStocks stocks raw sectors risk
  pass1 raw sectors risk inv (totalScoreOf risk target) target inv []

/-- One full submitted run (lines 42-202): guardrail, selection, the two
allocation passes, the empty-portfolio check, then the rendered result. -/
def runApp (stocks : List StockRow) (raw : String → Option ℚ)
    (sectors : String → Option String) (inv : ℚ) (risk : Risk) (lvl : Experience) : Outcome :=
  if inv < minRequiredInvestment stocks raw risk then
    Outcome.insufficientFunds (minRequiredInvestment stocks raw risk)
  else
    let target := targetStocks stocks raw sectors risk
    let p1 := pass1Result stocks raw sectors risk inv
    match pass2 raw target p1.1 p1.2.1 p1.2.2 with
    | none => Outcome.crash
    | some res =>
      if res.1 = [] then Outcome.noAllocation
      else
        Outcome.success res.1 res.2.2 res.2.1
          ⟨inv, totalInvested res.1, res.2.1, res.1.length, risk, lvl⟩

/-- The amount a line has actually converted into stock, `qty × live price`
(the quantity acquired times the live price every purchase of that stock was
made at).  Pass 1 and pass 2 deduct exactly these amounts from
`remaining_cash`. -/
def exactCost (raw : String → Option ℚ) (pf : List Line) : ℚ :=
  (pf.map (fun l => (l.qty : ℚ) * priceOf raw l.stock)).sum

/-- Blank out the experience level of a rendered summary, leaving every
computed component of the outcome intact; used to state that the experience
input is display-only. -/
def eraseExperience : Outcome → Outcome
  | .success pf sa cash s => .success pf sa cash { s with experienceLevel := .beginner }
  | o => o

/-- The scoring formula exactly as §4.1 of the specification words it
(weights written in the spec's order), to be compared with `score_stock`. -/
def riskScoreSpec (row : StockRow) : Risk → ℚ
  | .low => 0.4 * row.roce + 0.3 * row.divYld + 0.2 * row.qtrSalesVar + 0.1 * row.qtrProfitVar
  | .moderate => 0.3 * row.qtrSalesVar + 0.3 * row.qtrProfitVar + 0.2 * row.roce + 0.2 * row.divYld
  | .high => 0.4 * row.qtrProfitVar + 0.3 * row.qtrSalesVar + 0.2 * row.roce + 0.1 * row.divYld

/-- The minimum-viable-investment formula exactly as §4.2 of the
specification words it: the mean price of those of the top 5 ranked stocks
that have usable prices (0 when none has one), times 5, times 1.1. -/
def minViableSpec (stocks : List StockRow) (raw : String → Option ℚ) (risk : Risk) : ℚ :=
  let ranked := sortByScoreDesc risk stocks
  let usable := (ranked.take 5).filterMap (fun r => livePrices raw r.symbol)
  (if usable = [] then 0 else usable.sum / usable.length) * 5 * 1.1

/-- Pass 1 exactly as §4.4 of the specification words it; the one textual
difference from the source's `pass1` is the drop test, which the spec states
as "if quantity is 0" where the source has `if qty <= 0`. -/
def pass1Spec (raw : String → Option ℚ) (sectors : String → Option String) (risk : Risk)
    (inv totalScore : ℚ) :
    List StockRow → ℚ → List (String × ℚ) → List Line × ℚ × List (String × ℚ)
  | [], cash, sa => ([], cash, sa)
  | r :: rest, cash, sa =>
    let price := priceOf raw r.symbol
    let weight := min (score_stock r risk / totalScore) (maxStockWeight risk)
    let alloc := min (weight * inv) cash
    let qty : ℤ := Int.floor (alloc / price)
    if qty = 0 then
      pass1Spec raw sectors risk inv totalScore rest cash sa
    else
      let cost := (qty : ℚ) * price
      let sec := sectorOf sectors r.symbol
      let res := pass1Spec raw sectors risk inv totalScore rest (cash - cost) (bumpSector sa sec cost)
      (⟨r.symbol, round2 price, qty, round2 cost, sec⟩ :: res.1, res.2.1, res.2.2)

/-- Claim C4 as stated: there is an input on which the run succeeds yet ends
with leftover cash at least the live price of some surviving portfolio
stock (so one more unit of it could still have been bought). -/
def C4Claim : Prop :=
  ∃ (stocks : List StockRow) (raw : String → Option ℚ) (sectors : String → Option String)
    (inv : ℚ) (risk : Risk) (lvl : Experience) (pf : List Line)
    (sa : List (String × ℚ)) (cash : ℚ) (s : Summary) (l : Line),
    runApp stocks raw sectors inv risk lvl = Outcome.success pf sa cash s ∧
    l ∈ pf ∧ priceOf raw l.stock ≤ cash

/-! ### Concrete inputs used to exercise the pipeline

Two stocks in the same sector; under Low risk only the top-scored one is
selected, which makes the pass-1 zero-quantity path and the uncapped pass-2
reinvestment easy to reach. -/

/-- Two stocks: "AAA" scores 40 under Low risk, "BBB" scores 0. -/
def stocksAB : List StockRow := [⟨"AAA", 100, 0, 0, 0⟩, ⟨"BBB", 0, 0, 0, 0⟩]

/-- Both concrete stocks belong to the same sector "X". -/
def sectorsX : String → Option String :=
  fun s => if s = "AAA" ∨ s = "BBB" then some "X" else none

/-- Price table where the selected stock is too expensive for its weighted
share: "AAA" at 10000, "BBB" at 10. -/
def pricesHiLo : String → Option ℚ :=
  fun s => if s = "AAA" then some 10000 else if s = "BBB" then some 10 else none

/-- Price table where the selected stock is cheap: "AAA" at 100, "BBB" at 5. -/
def pricesCheap : String → Option ℚ :=
  fun s => if s = "AAA" then some 100 else if s = "BBB" then some 5 else none

/-- One stock priced at 3000 (the spec's Scenario B shape). -/
def priced3000 : String → Option ℚ :=
  fun s => if s = "AAA" then some 3000 else none

/-! ### Basic facts about prices and the guardrail -/

attribute [local semireducible] Rat.ofScientific Rat.add Rat.sub Rat.mul Rat.inv

lemma livePrices_pos {raw : String → Option ℚ} {s : String} {p : ℚ}
    (h : livePrices raw s = some p) : 0 < p := by
  unfold livePrices at h
  rcases hr : raw s with _ | q <;> rw [hr] at h <;> simp at h
  obtain ⟨hq, rfl⟩ := h
  exact hq

lemma priceOf_nonneg (raw : String → Option ℚ) (s : String) : 0 ≤ priceOf raw s := by
  unfold priceOf
  rcases h : livePrices raw s with _ | p
  · simp
  · simpa using le_of_lt (livePrices_pos h)

lemma priceOf_pos {raw : String → Option ℚ} {s : String}
    (h : (livePrices raw s).isSome) : 0 < priceOf raw s := by
  unfold priceOf
  rcases hs : livePrices raw s with _ | p
  · rw [hs] at h; simp at h
  · simpa using livePrices_pos hs

lemma top5Prices_pos (raw : String → Option ℚ) (sorted : List StockRow) :
    ∀ p ∈ top5Prices raw sorted, 0 < p := by
  intro p hp
  unfold top5Prices at hp
  rcases List.mem_filterMap.1 hp with ⟨r, _, hr⟩
  exact livePrices_pos hr

lemma minRequiredInvestment_nonneg (stocks : List StockRow) (raw : String → Option ℚ)
    (risk : Risk) : 0 ≤ minRequiredInvestment stocks raw risk := by
  unfold minRequiredInvestment avgTop5
  dsimp only
  have h5 : (0:ℚ) ≤ 5 * 1.1 := by norm_num
  rw [mul_assoc]
  refine mul_nonneg ?_ h5
  split
  · exact le_refl 0
  · refine div_nonneg ?_ (by positivity)
    exact List.sum_nonneg fun p hp => le_of_lt (top5Prices_pos _ _ p hp)

/-! ### The selection loop: count cap and sector diversity -/

lemma selectGo_length_le (risk : Risk) (sectors : String → Option String) :
    ∀ pool acc used, acc.length < stockCountCap risk →
      (selectGo risk sectors pool acc used).length ≤ stockCountCap risk := by
  intro pool
  induction pool with
  | nil => intro acc used h; rw [selectGo]; omega
  | cons r rs ih =>
    intro acc used h
    rw [selectGo]
    by_cases h1 : risk = Risk.low ∧ sectorOf sectors r.symbol ∈ used
    · rw [if_pos h1]; exact ih acc used h
    · rw [if_neg h1]
      by_cases h2 : stockCountCap risk ≤ acc.length + 1
      · rw [if_pos h2]; simp; omega
      · rw [if_neg h2]
        exact ih (acc ++ [r]) _ (by simp; omega)

lemma selectGo_low_pairwise (sectors : String → Option String) :
    ∀ pool acc used,
      (∀ a ∈ acc, sectorOf sectors a.symbol ∈ used) →
      (acc.map (fun a => sectorOf sectors a.symbol)).Pairwise (· ≠ ·) →
      ((selectGo Risk.low sectors pool acc used).map
          (fun a => sectorOf sectors a.symbol)).Pairwise (· ≠ ·) := by
  intro pool
  induction pool with
  | nil => intro acc used _ hpw; rw [selectGo]; exact hpw
  | cons r rs ih =>
    intro acc used hused hpw
    rw [selectGo]
    by_cases h1 : Risk.low = Risk.low ∧ sectorOf sectors r.symbol ∈ used
    · rw [if_pos h1]; exact ih acc used hused hpw
    · rw [if_neg h1]
      have hnot : sectorOf sectors r.symbol ∉ used := by
        intro hmem; exact h1 ⟨rfl, hmem⟩
      have hsep : ∀ x ∈ acc.map (fun a => sectorOf sectors a.symbol),
          ∀ y ∈ [sectorOf sectors r.symbol], x ≠ y := by
        intro x hx y hy
        rcases List.mem_map.1 hx with ⟨a, ha, rfl⟩
        rcases List.mem_singleton.1 hy with rfl
        intro hxy
        exact hnot (hxy ▸ hused a ha)
      have happ : ((acc ++ [r]).map (fun a => sectorOf sectors a.symbol)).Pairwise (· ≠ ·) := by
        rw [List.map_append, List.pairwise_append]
        exact ⟨hpw, by simp, hsep⟩
      by_cases h2 : stockCountCap Risk.low ≤ acc.length + 1
      · rw [if_pos h2]; exact happ
      · rw [if_neg h2]
        refine ih (acc ++ [r]) _ ?_ happ
        intro a ha
        rcases List.mem_append.1 ha with ha | ha
        · exact List.mem_cons_of_mem _ (hused a ha)
        · rcases List.mem_singleton.1 ha with rfl
          exact List.mem_cons_self _ _

/-- C6: the diversified selection never picks more stocks than the profile's
count cap (Low 5, Moderate 7, High 10), and under Low risk no two selected
stocks share a sector. -/
theorem selection_respects_count_and_sector_caps
    (risk : Risk) (sectors : String → Option String) (pool : List StockRow) :
    (selectStocks risk sectors pool).length ≤ stockCountCap risk ∧
      (risk = Risk.low →
        ((selectStocks risk sectors pool).map
            (fun a => sectorOf sectors a.symbol)).Pairwise (· ≠ ·)) := by
  constructor
  · refine selectGo_length_le risk sectors pool [] [] ?_
    cases risk <;> simp [stockCountCap]
  · rintro rfl
    exact selectGo_low_pairwise sectors pool [] [] (by simp) (by simp)

/-- C6 witness: at a concrete Low-risk pool both conclusions hold with the
hypothesis of the sector clause discharged. -/
theorem selection_respects_count_and_sector_caps_witness :
    (selectStocks Risk.low sectorsX stocksAB).length ≤ stockCountCap Risk.low ∧
      ((selectStocks Risk.low sectorsX stocksAB).map
          (fun a => sectorOf sectorsX a.symbol)).Pairwise (· ≠ ·) :=
  ⟨(selection_respects_count_and_sector_caps Risk.low sectorsX stocksAB).1,
   (selection_respects_count_and_sector_caps Risk.low sectorsX stocksAB).2 rfl⟩

/-- C7: `score_stock` computes exactly the per-profile weighted combination
stated in §4.1, and depends on nothing but the four metrics (in particular
not on the symbol), so identical inputs give identical scores. -/
theorem risk_score_matches_spec_weights :
    (∀ row risk, score_stock row risk = riskScoreSpec row risk) ∧
      (∀ s t a b c d risk,
        score_stock ⟨s, a, b, c, d⟩ risk = score_stock ⟨t, a, b, c, d⟩ risk) := by
  constructor
  · intro row risk; cases risk <;> simp [score_stock, riskScoreSpec] <;> ring
  · intro s t a b c d risk; cases risk <;> simp [score_stock]

/-- C5: whenever the investment is strictly below the computed minimum, the
run reports the insufficient-funds outcome carrying that minimum and nothing
else, and the minimum is exactly the spec's top-5 mean × 5 × 1.1 formula. -/
theorem insufficient_funds_guard
    (stocks : List StockRow) (raw : String → Option ℚ) (sectors : String → Option String)
    (inv : ℚ) (risk : Risk) (lvl : Experience)
    (h : inv < minRequiredInvestment stocks raw risk) :
    runApp stocks raw sectors inv risk lvl =
        Outcome.insufficientFunds (minRequiredInvestment stocks raw risk) ∧
      minRequiredInvestment stocks raw risk = minViableSpec stocks raw risk := by
  constructor
  · unfold runApp
    rw [if_pos h]
  · rfl

/-- C5 witness: the spec's Scenario B — a top-5 mean price of 3000 gives a
minimum of 16500, and an investment of 5000 is turned away with it. -/
theorem insufficient_funds_guard_witness :
    runApp [⟨"AAA", 100, 0, 0, 0⟩] priced3000 sectorsX 5000 Risk.low Experience.beginner =
        Outcome.insufficientFunds
          (minRequiredInvestment [⟨"AAA", 100, 0, 0, 0⟩] priced3000 Risk.low) ∧
      minRequiredInvestment [⟨"AAA", 100, 0, 0, 0⟩] priced3000 Risk.low =
        minViableSpec [⟨"AAA", 100, 0, 0, 0⟩] priced3000 Risk.low :=
  insufficient_funds_guard [⟨"AAA", 100, 0, 0, 0⟩] priced3000 sectorsX 5000
    Risk.low Experience.beginner (by decide)

/-- C1 (code bug): with a non-empty selection whose only stock's weighted
share buys zero units, pass 1 leaves the portfolio empty and the pass-2
sweep evaluates `min()` over an empty sequence — an uncaught `ValueError` —
before the empty-portfolio message at line 141 is ever reached.  At this
input the selection is the single stock "AAA", pass 1 drops it
(0.35 × 28000 = 9800 < 10000), and the run crashes. -/
theorem crash_on_empty_pass1_portfolio :
    targetStocks stocksAB pricesHiLo sectorsX Risk.low = [⟨"AAA", 100, 0, 0, 0⟩] ∧
      (pass1Result stocksAB pricesHiLo sectorsX Risk.low 28000).1 = [] ∧
      runApp stocksAB pricesHiLo sectorsX 28000 Risk.low Experience.beginner =
        Outcome.crash := by
  refine ⟨by decide, by decide, by decide⟩

/-- C9: the experience level is echo-only.  Two runs differing only in the
experience input produce identical outcomes up to the echoed summary field:
same portfolio lines, quantities, totals, sector totals and leftover cash. -/
theorem experience_level_no_interference
    (stocks : List StockRow) (raw : String → Option ℚ) (sectors : String → Option String)
    (inv : ℚ) (risk : Risk) (l1 l2 : Experience) :
    eraseExperience (runApp stocks raw sectors inv risk l1) =
      eraseExperience (runApp stocks raw sectors inv risk l2) := by
  unfold runApp
  by_cases h : inv < minRequiredInvestment stocks raw risk
  · simp only [if_pos h]
  · simp only [if_neg h]
    set o := pass2 raw (targetStocks stocks raw sectors risk)
      (pass1Result stocks raw sectors risk inv).1
      (pass1Result stocks raw sectors risk inv).2.1
      (pass1Result stocks raw sectors risk inv).2.2 with ho
    rcases o with _ | res
    · rfl
    · dsimp only
      by_cases he : res.1 = []
      · simp only [if_pos he]
      · simp only [if_neg he]
        rfl

lemma eligible_empty_of_no_prices (sorted : List StockRow) :
    eligibleStocks (fun _ => none) sorted = [] := by
  unfold eligibleStocks
  have : sorted.filter (fun r => (livePrices (fun _ => none) r.symbol).isSome) = [] := by
    simp [livePrices]
  rw [this]
  rfl

lemma minRequired_zero_of_no_prices (stocks : List StockRow) (risk : Risk) :
    minRequiredInvestment stocks (fun _ => none) risk = 0 := by
  unfold minRequiredInvestment avgTop5 top5Prices
  dsimp only
  have : ((sortByScoreDesc risk stocks).take 5).filterMap
      (fun r => livePrices (fun _ => none) r.symbol) = [] := by
    simp [livePrices]
  rw [this]
  norm_num

/-- C10: with no usable live price for any symbol, the minimum required
investment computes to 0 (so the insufficient-funds branch never fires for a
non-negative amount), the selection is empty, both passes do nothing (in
particular the pass-2 `min()` is never evaluated), and the run ends cleanly
in the no-allocation message. -/
theorem empty_price_table_clean_no_allocation
    (stocks : List StockRow) (sectors : String → Option String)
    (inv : ℚ) (risk : Risk) (lvl : Experience) (h : 0 ≤ inv) :
    minRequiredInvestment stocks (fun _ => none) risk = 0 ∧
      targetStocks stocks (fun _ => none) sectors risk = [] ∧
      runApp stocks (fun _ => none) sectors inv risk lvl = Outcome.noAllocation := by
  have htarget : targetStocks stocks (fun _ => none) sectors risk = [] := by
    unfold targetStocks selectStocks
    rw [eligible_empty_of_no_prices]
    rfl
  refine ⟨minRequired_zero_of_no_prices stocks risk, htarget, ?_⟩
  unfold runApp
  rw [minRequired_zero_of_no_prices stocks risk, if_neg (not_lt.mpr h)]
  dsimp only
  unfold pass1Result
  rw [htarget]
  rfl

/-- C10 witness: a concrete run (two stocks, prices all missing, investment
1000) ends in the no-allocation message with a zero minimum. -/
theorem empty_price_table_clean_no_allocation_witness :
    minRequiredInvestment stocksAB (fun _ => none) Risk.low = 0 ∧
      targetStocks stocksAB (fun _ => none) sectorsX Risk.low = [] ∧
      runApp stocksAB (fun _ => none) sectorsX 1000 Risk.low Experience.beginner =
        Outcome.noAllocation :=
  empty_price_table_clean_no_allocation stocksAB sectorsX 1000 Risk.low
    Experience.beginner (by norm_num)

/-! ### Arithmetic helpers for whole-unit purchases -/

lemma exactCost_nil (raw : String → Option ℚ) : exactCost raw [] = 0 := rfl

lemma exactCost_cons (raw : String → Option ℚ) (l : Line) (pf : List Line) :
    exactCost raw (l :: pf) = (l.qty : ℚ) * priceOf raw l.stock + exactCost raw pf := by
  simp [exactCost]

/-- Buying `⌊x / p⌋` units at price `p` costs at most `x`. -/
lemma floor_units_cost_le {x p : ℚ} (hp : 0 < p) : ((Int.floor (x / p) : ℚ)) * p ≤ x := by
  have h := Int.floor_le (x / p)
  have := mul_le_mul_of_nonneg_right h (le_of_lt hp)
  rwa [div_mul_cancel₀ x (ne_of_gt hp)] at this

/-- After buying `⌊cash / p⌋` units at price `p`, the rest is below `p`. -/
lemma rest_after_floor_units_lt {cash p : ℚ} (hp : 0 < p) :
    cash - ((Int.floor (cash / p) : ℚ)) * p < p := by
  have h := Int.lt_floor_add_one (cash / p)
  have h2 : cash < ((Int.floor (cash / p) : ℚ) + 1) * p := (div_lt_iff₀ hp).1 h
  nlinarith

/-- With `p ≤ cash` and `0 < p`, at least one unit is bought. -/
lemma one_le_floor_units {cash p : ℚ} (hp : 0 < p) (h : p ≤ cash) :
    1 ≤ Int.floor (cash / p) := by
  rw [Int.le_floor]
  push_cast
  rw [le_div_iff₀ hp]
  linarith

/-- A positive floor of `x / p` forces `p` to be positive when `p` is known
non-negative (at `p = 0` the quotient is 0). -/
lemma price_pos_of_floor_pos {x p : ℚ} (hp : 0 ≤ p) (h : 0 < Int.floor (x / p)) : 0 < p := by
  rcases lt_or_eq_of_le hp with hlt | heq
  · exact hlt
  · rw [← heq] at h
    simp at h

/-- `round(·, 2)` is the identity on paise-quantized amounts: an integer
number of units at a price that is an integer number of paise. -/
lemma round2_paise (q k : ℤ) : round2 ((q : ℚ) * ((k : ℚ) / 100)) = (q : ℚ) * ((k : ℚ) / 100) := by
  unfold round2
  have h : ((q : ℚ) * ((k : ℚ) / 100)) * 100 = ((q * k : ℤ) : ℚ) := by
    push_cast
    ring
  rw [h, round_intCast]
  push_cast
  ring

/-- A symbol with a positive read-out price has a live-price entry equal to
that read-out. -/
lemma livePrices_eq_of_priceOf_pos {raw : String → Option ℚ} {s : String}
    (h : 0 < priceOf raw s) : livePrices raw s = some (priceOf raw s) := by
  unfold priceOf at h ⊢
  rcases hs : livePrices raw s with _ | p
  · rw [hs] at h; simp at h
  · simp

lemma foldl_min_le_init (ps : List ℚ) : ∀ p : ℚ, ps.foldl min p ≤ p := by
  induction ps with
  | nil => intro p; simp
  | cons q ps ih =>
    intro p
    calc ps.foldl min (min p q) ≤ min p q := ih (min p q)
    _ ≤ p := min_le_left _ _

lemma foldl_min_le_mem (ps : List ℚ) : ∀ p x, x ∈ ps → ps.foldl min p ≤ x := by
  induction ps with
  | nil => intro p x hx; simp at hx
  | cons q ps ih =>
    intro p x hx
    rcases List.mem_cons.1 hx with rfl | hx
    · calc ps.foldl min (min p x) ≤ min p x := foldl_min_le_init ps (min p x)
      _ ≤ x := min_le_right _ _
    · exact ih (min p q) x hx

lemma minPortfolioPrice_le {raw : String → Option ℚ} {pf : List Line} {m : ℚ}
    (hm : minPortfolioPrice raw pf = some m) :
    ∀ l ∈ pf, m ≤ priceOf raw l.stock := by
  unfold minPortfolioPrice at hm
  cases pf with
  | nil => simp at hm
  | cons l0 ls =>
    simp only [List.map_cons] at hm
    injection hm with hm
    intro l hl
    rcases List.mem_cons.1 hl with rfl | hl
    · rw [← hm]; exact foldl_min_le_init _ _
    · rw [← hm]
      exact foldl_min_le_mem _ _ _ (List.mem_map_of_mem _ hl)

lemma minPortfolioPrice_ne_none {raw : String → Option ℚ} {pf : List Line}
    (h : pf ≠ []) : minPortfolioPrice raw pf ≠ none := by
  unfold minPortfolioPrice
  cases pf with
  | nil => exact absurd rfl h
  | cons l0 ls => simp

/-! ### Pass 1: cash accounting, positivity, and the weight cap -/

lemma maxStockWeight_pos (risk : Risk) : 0 < maxStockWeight risk := by
  cases risk <;> norm_num [maxStockWeight]

/-- The master invariant of pass 1, starting from any non-negative cash:
the remaining cash stays non-negative and only shrinks, the cash spent is
exactly the summed cost of the emitted lines, and every emitted line bought
at least one unit, at a positive live price, recorded its rounded cost, kept
its exact cost within `weight cap × investment`, and names a selected
symbol. -/
lemma pass1_main (raw : String → Option ℚ) (sectors : String → Option String) (risk : Risk)
    (inv ts : ℚ) (hinv : 0 ≤ inv) :
    ∀ (target : List StockRow) (cash : ℚ) (sa : List (String × ℚ)), 0 ≤ cash →
      0 ≤ (pass1 raw sectors risk inv ts target cash sa).2.1 ∧
        (pass1 raw sectors risk inv ts target cash sa).2.1 ≤ cash ∧
        (pass1 raw sectors risk inv ts target cash sa).2.1
            + exactCost raw (pass1 raw sectors risk inv ts target cash sa).1 = cash ∧
        ∀ l ∈ (pass1 raw sectors risk inv ts target cash sa).1,
          1 ≤ l.qty ∧ 0 < priceOf raw l.stock ∧
            l.total = round2 ((l.qty : ℚ) * priceOf raw l.stock) ∧
            (l.qty : ℚ) * priceOf raw l.stock ≤ maxStockWeight risk * inv ∧
            ∃ r ∈ target, l.stock = r.symbol := by
  intro target
  induction target with
  | nil =>
    intro cash sa hcash
    rw [pass1]
    exact ⟨hcash, le_refl _, by simp [exactCost], by simp⟩
  | cons r rest ih =>
    intro cash sa hcash
    rw [pass1]
    dsimp only
    set price := priceOf raw r.symbol with hprice
    set weight := min (score_stock r risk / ts) (maxStockWeight risk) with hweight
    set alloc := min (weight * inv) cash with halloc
    set qty := Int.floor (alloc / price) with hqtydef
    by_cases hq : qty ≤ 0
    · rw [if_pos hq]
      obtain ⟨h1, h2, h3, h4⟩ := ih cash sa hcash
      refine ⟨h1, h2, h3, fun l hl => ?_⟩
      obtain ⟨a, b, c, d, r', hr', he⟩ := h4 l hl
      exact ⟨a, b, c, d, r', List.mem_cons_of_mem _ hr', he⟩
    · rw [if_neg hq]
      have hq1 : 1 ≤ qty := by omega
      have hqQ : (1 : ℚ) ≤ (qty : ℚ) := by exact_mod_cast hq1
      have hpnn : 0 ≤ price := by rw [hprice]; exact priceOf_nonneg raw r.symbol
      have hppos : 0 < price := by
        refine @price_pos_of_floor_pos alloc price hpnn ?_
        rw [← hqtydef]; omega
      have hcost_le_alloc : (qty : ℚ) * price ≤ alloc := by
        rw [hqtydef]; exact floor_units_cost_le hppos
      have halloc_le_cash : alloc ≤ cash := by rw [halloc]; exact min_le_right _ _
      have halloc_le_winv : alloc ≤ weight * inv := by rw [halloc]; exact min_le_left _ _
      have hweight_le : weight ≤ maxStockWeight risk := by
        rw [hweight]; exact min_le_right _ _
      have hcost_nonneg : 0 ≤ (qty : ℚ) * price := mul_nonneg (by linarith) hpnn
      have hcash' : 0 ≤ cash - (qty : ℚ) * price := by
        have := le_trans hcost_le_alloc halloc_le_cash
        linarith
      obtain ⟨h1, h2, h3, h4⟩ :=
        ih (cash - (qty : ℚ) * price)
          (bumpSector sa (sectorOf sectors r.symbol) ((qty : ℚ) * price)) hcash'
      dsimp only
      refine ⟨h1, by linarith, ?_, ?_⟩
      · rw [exactCost_cons]
        dsimp only [Line.stock, Line.qty]
        rw [← hprice]
        linarith
      · intro l hl
        rcases List.mem_cons.1 hl with rfl | hl
        · refine ⟨hq1, hppos, rfl, ?_, ⟨r, List.mem_cons_self _ _, rfl⟩⟩
          show (qty : ℚ) * price ≤ maxStockWeight risk * inv
          have hw : weight * inv ≤ maxStockWeight risk * inv :=
            mul_le_mul_of_nonneg_right hweight_le hinv
          linarith
        · obtain ⟨a, b, c, d, r', hr', he⟩ := h4 l hl
          exact ⟨a, b, c, d, r', List.mem_cons_of_mem _ hr', he⟩

/-! ### Pass 2's inner sweep -/

/-- The master invariant of one inner sweep: cash stays non-negative and
only shrinks, spending is exactly the growth in summed line cost, the stock
list is unchanged (no line added, dropped, or reordered), and each line only
grows in quantity, keeping its stock and sector. -/
lemma sweep_main (raw : String → Option ℚ) :
    ∀ (pf : List Line) (cash : ℚ) (sa : List (String × ℚ)), 0 ≤ cash →
      0 ≤ (sweep raw pf cash sa).2.1 ∧
        (sweep raw pf cash sa).2.1 ≤ cash ∧
        (sweep raw pf cash sa).2.1 + exactCost raw (sweep raw pf cash sa).1
            = cash + exactCost raw pf ∧
        (sweep raw pf cash sa).1.map Line.stock = pf.map Line.stock ∧
        ∀ l' ∈ (sweep raw pf cash sa).1,
          ∃ l ∈ pf, l'.stock = l.stock ∧ l'.sector = l.sector ∧ l.qty ≤ l'.qty := by
  intro pf
  induction pf with
  | nil =>
    intro cash sa hcash
    rw [sweep]
    exact ⟨hcash, le_refl _, by simp, rfl, by simp⟩
  | cons l ls ih =>
    intro cash sa hcash
    rw [sweep]
    dsimp only
    set price := priceOf raw l.stock with hprice
    by_cases hc : price ≤ cash
    · rw [if_pos hc]
      set aqty := Int.floor (cash / price) with haq
      by_cases ha : 0 < aqty
      · rw [if_pos ha]
        have hpnn : 0 ≤ price := by rw [hprice]; exact priceOf_nonneg raw l.stock
        have hpp : 0 < price := by
          refine @price_pos_of_floor_pos cash price hpnn ?_
          rw [← haq]; omega
        have hcost_le : (aqty : ℚ) * price ≤ cash := by
          rw [haq]; exact floor_units_cost_le hpp
        have haqQ : (1 : ℚ) ≤ (aqty : ℚ) := by exact_mod_cast ha
        have hpcost : price ≤ (aqty : ℚ) * price := by nlinarith
        have hcash' : 0 ≤ cash - (aqty : ℚ) * price := by linarith
        obtain ⟨h1, h2, h3, h4, h5⟩ :=
          ih (cash - (aqty : ℚ) * price) (bumpSector sa l.sector ((aqty : ℚ) * price)) hcash'
        refine ⟨h1, by linarith, ?_, ?_, ?_⟩
        · rw [exactCost_cons, exactCost_cons]
          dsimp only [Line.stock, Line.qty]
          rw [← hprice]
          have hsplit : ((l.qty + aqty : ℤ) : ℚ) * price
              = (l.qty : ℚ) * price + (aqty : ℚ) * price := by
            push_cast
            ring
          rw [hsplit]
          linarith
        · simp only [List.map_cons]
          rw [h4]
        · intro l' hl'
          rcases List.mem_cons.1 hl' with rfl | hl'
          · refine ⟨l, List.mem_cons_self _ _, rfl, rfl, ?_⟩
            show l.qty ≤ l.qty + aqty
            omega
          · obtain ⟨l0, hl0, hs, hsec, hq⟩ := h5 l' hl'
            exact ⟨l0, List.mem_cons_of_mem _ hl0, hs, hsec, hq⟩
      · rw [if_neg ha]
        obtain ⟨h1, h2, h3, h4, h5⟩ := ih cash sa hcash
        dsimp only
        refine ⟨h1, h2, ?_, ?_, ?_⟩
        · rw [exactCost_cons, exactCost_cons]
          linarith
        · simp only [List.map_cons]
          rw [h4]
        · intro l' hl'
          rcases List.mem_cons.1 hl' with rfl | hl'
          · exact ⟨l', List.mem_cons_self _ _, rfl, rfl, le_refl _⟩
          · obtain ⟨l0, hl0, hs, hsec, hq⟩ := h5 l' hl'
            exact ⟨l0, List.mem_cons_of_mem _ hl0, hs, hsec, hq⟩
    · rw [if_neg hc]
      obtain ⟨h1, h2, h3, h4, h5⟩ := ih cash sa hcash
      dsimp only
      refine ⟨h1, h2, ?_, ?_, ?_⟩
      · rw [exactCost_cons, exactCost_cons]
        linarith
      · simp only [List.map_cons]
        rw [h4]
      · intro l' hl'
        rcases List.mem_cons.1 hl' with rfl | hl'
        · exact ⟨l', List.mem_cons_self _ _, rfl, rfl, le_refl _⟩
        · obtain ⟨l0, hl0, hs, hsec, hq⟩ := h5 l' hl'
          exact ⟨l0, List.mem_cons_of_mem _ hl0, hs, hsec, hq⟩

/-- After one full inner sweep over lines with positive prices, the
remaining cash is below the price of every line: the sweep exhausts cash in
the whole-unit sense. -/
lemma sweep_cash_lt (raw : String → Option ℚ) :
    ∀ (pf : List Line) (cash : ℚ) (sa : List (String × ℚ)), 0 ≤ cash →
      (∀ l ∈ pf, 0 < priceOf raw l.stock) →
      ∀ l' ∈ (sweep raw pf cash sa).1,
        (sweep raw pf cash sa).2.1 < priceOf raw l'.stock := by
  intro pf
  induction pf with
  | nil => intro cash sa _ _ l' hl'; rw [sweep] at hl'; simp at hl'
  | cons l ls ih =>
    intro cash sa hcash hp
    have hpp : 0 < priceOf raw l.stock := hp l (List.mem_cons_self _ _)
    have hptail : ∀ x ∈ ls, 0 < priceOf raw x.stock :=
      fun x hx => hp x (List.mem_cons_of_mem _ hx)
    rw [sweep]
    dsimp only
    set price := priceOf raw l.stock with hprice
    by_cases hc : price ≤ cash
    · rw [if_pos hc]
      set aqty := Int.floor (cash / price) with haq
      have ha : 0 < aqty := by
        rw [haq]
        have := one_le_floor_units hpp hc
        omega
      rw [if_pos ha]
      have hcash1 : 0 ≤ cash - (aqty : ℚ) * price := by
        have : (aqty : ℚ) * price ≤ cash := by rw [haq]; exact floor_units_cost_le hpp
        linarith
      have hlt : cash - (aqty : ℚ) * price < price := by
        rw [haq]; exact rest_after_floor_units_lt hpp
      obtain ⟨-, h2, -, -, -⟩ :=
        sweep_main raw ls (cash - (aqty : ℚ) * price) (bumpSector sa l.sector ((aqty : ℚ) * price)) hcash1
      intro l' hl'
      dsimp only at hl' ⊢
      rcases List.mem_cons.1 hl' with rfl | hl'
      · dsimp only [Line.stock]
        rw [← hprice]
        exact lt_of_le_of_lt h2 hlt
      · exact ih (cash - (aqty : ℚ) * price) (bumpSector sa l.sector ((aqty : ℚ) * price))
          hcash1 hptail l' hl'
    · rw [if_neg hc]
      have hcl : cash < price := lt_of_not_le hc
      obtain ⟨-, h2, -, -, -⟩ := sweep_main raw ls cash sa hcash
      intro l' hl'
      dsimp only at hl' ⊢
      rcases List.mem_cons.1 hl' with rfl | hl'
      · exact lt_of_le_of_lt h2 hcl
      · exact ih cash sa hcash hptail l' hl'

/-- The sweep preserves exactness of the stored totals when every live price
is an integer number of paise: each purchase's `round(·, 2)` is then the
identity, so a line whose total equals `qty × price` keeps that equality. -/
lemma sweep_totals (raw : String → Option ℚ) :
    ∀ (pf : List Line) (cash : ℚ) (sa : List (String × ℚ)),
      (∀ l ∈ pf, ∃ k : ℤ, priceOf raw l.stock = (k : ℚ) / 100) →
      (∀ l ∈ pf, l.total = (l.qty : ℚ) * priceOf raw l.stock) →
      ∀ l' ∈ (sweep raw pf cash sa).1, l'.total = (l'.qty : ℚ) * priceOf raw l'.stock := by
  intro pf
  induction pf with
  | nil => intro cash sa _ _ l' hl'; rw [sweep] at hl'; simp at hl'
  | cons l ls ih =>
    intro cash sa hk ht
    have hktail : ∀ x ∈ ls, ∃ k : ℤ, priceOf raw x.stock = (k : ℚ) / 100 :=
      fun x hx => hk x (List.mem_cons_of_mem _ hx)
    have httail : ∀ x ∈ ls, x.total = (x.qty : ℚ) * priceOf raw x.stock :=
      fun x hx => ht x (List.mem_cons_of_mem _ hx)
    have hhead : l.total = (l.qty : ℚ) * priceOf raw l.stock := ht l (List.mem_cons_self _ _)
    obtain ⟨k, hkeq⟩ := hk l (List.mem_cons_self _ _)
    rw [sweep]
    dsimp only
    set price := priceOf raw l.stock with hprice
    by_cases hc : price ≤ cash
    · rw [if_pos hc]
      set aqty := Int.floor (cash / price) with haq
      by_cases ha : 0 < aqty
      · rw [if_pos ha]
        intro l' hl'
        dsimp only at hl'
        rcases List.mem_cons.1 hl' with rfl | hl'
        · dsimp only [Line.stock, Line.qty, Line.total]
          rw [← hprice, hhead]
          have hr : round2 ((aqty : ℚ) * price) = (aqty : ℚ) * price := by
            rw [hkeq]
            exact round2_paise aqty k
          rw [hr]
          push_cast
          ring
        · exact ih (cash - (aqty : ℚ) * price) (bumpSector sa l.sector ((aqty : ℚ) * price))
            hktail httail l' hl'
      · rw [if_neg ha]
        intro l' hl'
        dsimp only at hl'
        rcases List.mem_cons.1 hl' with rfl | hl'
        · exact hhead
        · exact ih cash sa hktail httail l' hl'
    · rw [if_neg hc]
      intro l' hl'
      dsimp only at hl'
      rcases List.mem_cons.1 hl' with rfl | hl'
      · exact hhead
      · exact ih cash sa hktail httail l' hl'

/-! ### Pass 2: the outer reinvestment loop -/

/-- The master invariant of pass 2 on the non-crashing paths: cash stays
non-negative and only shrinks, spending equals the growth in summed line
cost, the stock list is untouched, lines only grow, and — whenever the outer
loop ran at least once over positively priced lines — the final cash is
strictly below the price of every surviving line. -/
lemma pass2_main (raw : String → Option ℚ) :
    ∀ (target : List StockRow) (pf : List Line) (cash : ℚ) (sa : List (String × ℚ)),
      0 ≤ cash →
      ∀ res, pass2 raw target pf cash sa = some res →
        0 ≤ res.2.1 ∧ res.2.1 ≤ cash ∧
          res.2.1 + exactCost raw res.1 = cash + exactCost raw pf ∧
          res.1.map Line.stock = pf.map Line.stock ∧
          (∀ l' ∈ res.1, ∃ l ∈ pf, l'.stock = l.stock ∧ l'.sector = l.sector ∧ l.qty ≤ l'.qty) ∧
          ((∀ l ∈ pf, 0 < priceOf raw l.stock) →
            ((∀ l ∈ pf, cash < priceOf raw l.stock) →
              ∀ l' ∈ res.1, res.2.1 < priceOf raw l'.stock) ∧
            (target ≠ [] → ∀ l' ∈ res.1, res.2.1 < priceOf raw l'.stock)) := by
  intro target
  induction target with
  | nil =>
    intro pf cash sa hcash res hres
    rw [pass2] at hres
    injection hres with hres
    subst hres
    refine ⟨hcash, le_refl _, by ring, rfl, ?_, ?_⟩
    · intro l' hl'
      exact ⟨l', hl', rfl, rfl, le_refl _⟩
    · intro _
      exact ⟨fun hlt l' hl' => hlt l' hl', fun htgt => absurd rfl htgt⟩
  | cons r rest ih =>
    intro pf cash sa hcash res hres
    rw [pass2] at hres
    rcases hm : minPortfolioPrice raw pf with _ | m
    · rw [hm] at hres
      simp at hres
    · rw [hm] at hres
      dsimp only at hres
      by_cases hlt : cash < m
      · rw [if_pos hlt] at hres
        injection hres with hres
        subst hres
        have hall : ∀ l ∈ pf, cash < priceOf raw l.stock :=
          fun l hl => lt_of_lt_of_le hlt (minPortfolioPrice_le hm l hl)
        refine ⟨hcash, le_refl _, by ring, rfl, ?_, ?_⟩
        · intro l' hl'
          exact ⟨l', hl', rfl, rfl, le_refl _⟩
        · intro _
          exact ⟨fun _ l' hl' => hall l' hl', fun _ l' hl' => hall l' hl'⟩
      · rw [if_neg hlt] at hres
        obtain ⟨s1, s2, s3, s4, s5⟩ := sweep_main raw pf cash sa hcash
        obtain ⟨h1, h2, h3, h4, h5, h6⟩ :=
          ih (sweep raw pf cash sa).1 (sweep raw pf cash sa).2.1
            (sweep raw pf cash sa).2.2 s1 res hres
        refine ⟨h1, le_trans h2 s2, by linarith, by rw [h4, s4], ?_, ?_⟩
        · intro l' hl'
          obtain ⟨lm, hlm, hs1, hsec1, hq1⟩ := h5 l' hl'
          obtain ⟨l0, hl0, hs0, hsec0, hq0⟩ := s5 lm hlm
          exact ⟨l0, hl0, hs1.trans hs0, hsec1.trans hsec0, le_trans hq0 hq1⟩
        · intro hp
          have hp' : ∀ lm ∈ (sweep raw pf cash sa).1, 0 < priceOf raw lm.stock := by
            intro lm hlm
            obtain ⟨l0, hl0, hs0, -, -⟩ := s5 lm hlm
            rw [hs0]
            exact hp l0 hl0
          have hswf : ∀ lm ∈ (sweep raw pf cash sa).1,
              (sweep raw pf cash sa).2.1 < priceOf raw lm.stock :=
            sweep_cash_lt raw pf cash sa hcash hp
          have step := (h6 hp').1 hswf
          exact ⟨fun _ => step, fun _ => step⟩

/-- Pass 2 keeps stored totals exact when live prices are paise-quantized. -/
lemma pass2_totals (raw : String → Option ℚ) :
    ∀ (target : List StockRow) (pf : List Line) (cash : ℚ) (sa : List (String × ℚ)),
      0 ≤ cash →
      (∀ l ∈ pf, ∃ k : ℤ, priceOf raw l.stock = (k : ℚ) / 100) →
      (∀ l ∈ pf, l.total = (l.qty : ℚ) * priceOf raw l.stock) →
      ∀ res, pass2 raw target pf cash sa = some res →
        ∀ l' ∈ res.1, l'.total = (l'.qty : ℚ) * priceOf raw l'.stock := by
  intro target
  induction target with
  | nil =>
    intro pf cash sa _ _ ht res hres
    rw [pass2] at hres
    injection hres with hres
    subst hres
    exact ht
  | cons r rest ih =>
    intro pf cash sa hcash hk ht res hres
    rw [pass2] at hres
    rcases hm : minPortfolioPrice raw pf with _ | m
    · rw [hm] at hres
      simp at hres
    · rw [hm] at hres
      dsimp only at hres
      by_cases hlt : cash < m
      · rw [if_pos hlt] at hres
        injection hres with hres
        subst hres
        exact ht
      · rw [if_neg hlt] at hres
        obtain ⟨s1, -, -, -, s5⟩ := sweep_main raw pf cash sa hcash
        have hk' : ∀ lm ∈ (sweep raw pf cash sa).1,
            ∃ k : ℤ, priceOf raw lm.stock = (k : ℚ) / 100 := by
          intro lm hlm
          obtain ⟨l0, hl0, hs0, -, -⟩ := s5 lm hlm
          rw [hs0]
          exact hk l0 hl0
        have ht' : ∀ lm ∈ (sweep raw pf cash sa).1,
            lm.total = (lm.qty : ℚ) * priceOf raw lm.stock :=
          sweep_totals raw pf cash sa hk ht
        exact ih (sweep raw pf cash sa).1 (sweep raw pf cash sa).2.1
          (sweep raw pf cash sa).2.2 s1 hk' ht' res hres

/-! ### Full-run facts -/

/-- A successful run passed the guardrail, pass 2 returned without crashing,
and the rendered portfolio is its non-empty first component. -/
lemma runApp_success_elim {stocks : List StockRow} {raw : String → Option ℚ}
    {sectors : String → Option String} {inv : ℚ} {risk : Risk} {lvl : Experience}
    {pf : List Line} {sa : List (String × ℚ)} {cash : ℚ} {s : Summary}
    (h : runApp stocks raw sectors inv risk lvl = Outcome.success pf sa cash s) :
    minRequiredInvestment stocks raw risk ≤ inv ∧
      ∃ res, pass2 raw (targetStocks stocks raw sectors risk)
          (pass1Result stocks raw sectors risk inv).1
          (pass1Result stocks raw sectors risk inv).2.1
          (pass1Result stocks raw sectors risk inv).2.2 = some res ∧
        res.1 = pf ∧ res.2.2 = sa ∧ res.2.1 = cash ∧ pf ≠ [] := by
  unfold runApp at h
  by_cases hg : inv < minRequiredInvestment stocks raw risk
  · rw [if_pos hg] at h
    exact absurd h (by simp)
  · rw [if_neg hg] at h
    refine ⟨not_lt.1 hg, ?_⟩
    dsimp only at h
    rcases hp2 : pass2 raw (targetStocks stocks raw sectors risk)
        (pass1Result stocks raw sectors risk inv).1
        (pass1Result stocks raw sectors risk inv).2.1
        (pass1Result stocks raw sectors risk inv).2.2 with _ | res
    · rw [hp2] at h
      exact absurd h (by simp)
    · rw [hp2] at h
      dsimp only at h
      by_cases he : res.1 = []
      · rw [if_pos he] at h
        exact absurd h (by simp)
      · rw [if_neg he] at h
        simp only [Outcome.success.injEq] at h
        obtain ⟨h1, h2, h3, -⟩ := h
        exact ⟨res, rfl, h1, h2, h3, h1 ▸ he⟩

/-- The lines pass 1 emits for a full run: at least one unit each, positive
live prices, rounded stored totals, and the pass-1 weight cap. -/
lemma pass1Result_lines {stocks : List StockRow} {raw : String → Option ℚ}
    {sectors : String → Option String} {risk : Risk} {inv : ℚ} (hinv : 0 ≤ inv) :
    0 ≤ (pass1Result stocks raw sectors risk inv).2.1 ∧
      (pass1Result stocks raw sectors risk inv).2.1
          + exactCost raw (pass1Result stocks raw sectors risk inv).1 = inv ∧
      ∀ l ∈ (pass1Result stocks raw sectors risk inv).1,
        1 ≤ l.qty ∧ 0 < priceOf raw l.stock ∧
          l.total = round2 ((l.qty : ℚ) * priceOf raw l.stock) := by
  obtain ⟨h1, -, h3, h4⟩ :=
    pass1_main raw sectors risk inv
      (totalScoreOf risk (targetStocks stocks raw sectors risk)) hinv
      (targetStocks stocks raw sectors risk) inv [] hinv
  exact ⟨h1, h3, fun l hl => ⟨(h4 l hl).1, (h4 l hl).2.1, (h4 l hl).2.2.1⟩⟩

/-- The heart of C4 (and of the success paths of C2/C8): after any
successful run the leftover cash is strictly below the live price of every
surviving portfolio stock — the pass-2 early exit never strands purchasable
cash. -/
lemma success_leftover_lt_prices {stocks : List StockRow} {raw : String → Option ℚ}
    {sectors : String → Option String} {inv : ℚ} {risk : Risk} {lvl : Experience}
    {pf : List Line} {sa : List (String × ℚ)} {cash : ℚ} {s : Summary}
    (hrun : runApp stocks raw sectors inv risk lvl = Outcome.success pf sa cash s) :
    ∀ l ∈ pf, cash < priceOf raw l.stock := by
  obtain ⟨hge, res, hp2, hpf, hsa, hcash, hne⟩ := runApp_success_elim hrun
  have hinv : 0 ≤ inv := le_trans (minRequiredInvestment_nonneg stocks raw risk) hge
  obtain ⟨p1nn, -, p1lines⟩ := @pass1Result_lines stocks raw sectors risk inv hinv
  have hp1pos : ∀ l ∈ (pass1Result stocks raw sectors risk inv).1, 0 < priceOf raw l.stock :=
    fun l hl => (p1lines l hl).2.1
  have htne : targetStocks stocks raw sectors risk ≠ [] := by
    intro h0
    have hP1 : (pass1Result stocks raw sectors risk inv).1 = [] := by
      unfold pass1Result
      dsimp only
      rw [h0, pass1]
    obtain ⟨-, -, -, h4, -, -⟩ :=
      pass2_main raw (targetStocks stocks raw sectors risk)
        (pass1Result stocks raw sectors risk inv).1
        (pass1Result stocks raw sectors risk inv).2.1
        (pass1Result stocks raw sectors risk inv).2.2 p1nn res hp2
    apply hne
    rw [← hpf]
    have hmap : res.1.map Line.stock = [] := by rw [h4, hP1]; rfl
    exact List.map_eq_nil_iff.1 hmap
  obtain ⟨-, -, -, -, -, h6⟩ :=
    pass2_main raw (targetStocks stocks raw sectors risk)
      (pass1Result stocks raw sectors risk inv).1
      (pass1Result stocks raw sectors risk inv).2.1
      (pass1Result stocks raw sectors risk inv).2.2 p1nn res hp2
  intro l hl
  have hl' : l ∈ res.1 := by rw [hpf]; exact hl
  have hres := (h6 hp1pos).2 htne l hl'
  rw [← hcash]
  exact hres

/-- C2: for a successful run over paise-quantized live prices (currency
precision), the stored line totals plus the leftover cash reconstruct the
investment amount exactly, and the leftover is non-negative after pass 1
(third conjunct) and after pass 2 (second and fourth: pass 2 only spends). -/
theorem totals_plus_leftover_eq_investment
    (stocks : List StockRow) (raw : String → Option ℚ) (sectors : String → Option String)
    (inv : ℚ) (risk : Risk) (lvl : Experience)
    (pf : List Line) (sa : List (String × ℚ)) (cash : ℚ) (s : Summary)
    (hpaise : ∀ str p, livePrices raw str = some p → ∃ k : ℤ, p = (k : ℚ) / 100)
    (hrun : runApp stocks raw sectors inv risk lvl = Outcome.success pf sa cash s) :
    totalInvested pf + cash = inv ∧ 0 ≤ cash ∧
      0 ≤ (pass1Result stocks raw sectors risk inv).2.1 ∧
      cash ≤ (pass1Result stocks raw sectors risk inv).2.1 := by
  obtain ⟨hge, res, hp2, hpf, hsa, hcash, hne⟩ := runApp_success_elim hrun
  have hinv : 0 ≤ inv := le_trans (minRequiredInvestment_nonneg stocks raw risk) hge
  obtain ⟨p1nn, p1sum, p1lines⟩ := @pass1Result_lines stocks raw sectors risk inv hinv
  have hk1 : ∀ l ∈ (pass1Result stocks raw sectors risk inv).1,
      ∃ k : ℤ, priceOf raw l.stock = (k : ℚ) / 100 := by
    intro l hl
    exact hpaise l.stock (priceOf raw l.stock)
      (livePrices_eq_of_priceOf_pos (p1lines l hl).2.1)
  have ht1 : ∀ l ∈ (pass1Result stocks raw sectors risk inv).1,
      l.total = (l.qty : ℚ) * priceOf raw l.stock := by
    intro l hl
    obtain ⟨k, hk⟩ := hk1 l hl
    rw [(p1lines l hl).2.2, hk]
    exact round2_paise l.qty k
  obtain ⟨h1, h2, h3, -, -, -⟩ :=
    pass2_main raw (targetStocks stocks raw sectors risk)
      (pass1Result stocks raw sectors risk inv).1
      (pass1Result stocks raw sectors risk inv).2.1
      (pass1Result stocks raw sectors risk inv).2.2 p1nn res hp2
  have htot : ∀ l ∈ res.1, l.total = (l.qty : ℚ) * priceOf raw l.stock :=
    pass2_totals raw (targetStocks stocks raw sectors risk)
      (pass1Result stocks raw sectors risk inv).1
      (pass1Result stocks raw sectors risk inv).2.1
      (pass1Result stocks raw sectors risk inv).2.2 p1nn hk1 ht1 res hp2
  have hsum : totalInvested pf = exactCost raw pf := by
    unfold totalInvested exactCost
    congr 1
    refine List.map_congr_left ?_
    intro l hl
    exact htot l (by rw [hpf]; exact hl)
  refine ⟨?_, by rw [← hcash]; exact h1, p1nn, by rw [← hcash]; exact h2⟩
  rw [hsum, ← hpf, ← hcash]
  linarith [h3, p1sum]

/-- C2 witness: a concrete successful Low-risk run at paise prices — the
single line's stored total (1000) plus the zero leftover is the investment. -/
theorem totals_plus_leftover_eq_investment_witness :
    totalInvested [⟨"AAA", 100, 10, 1000, "X"⟩] + 0 = 1000 ∧ (0 : ℚ) ≤ 0 ∧
      0 ≤ (pass1Result stocksAB pricesCheap sectorsX Risk.low 1000).2.1 ∧
      (0 : ℚ) ≤ (pass1Result stocksAB pricesCheap sectorsX Risk.low 1000).2.1 :=
  totals_plus_leftover_eq_investment stocksAB pricesCheap sectorsX 1000 Risk.low
    Experience.beginner [⟨"AAA", 100, 10, 1000, "X"⟩] [("X", 1000)] 0
    ⟨1000, 1000, 0, 1, Risk.low, Experience.beginner⟩
    (by
      intro str p h
      by_cases h1 : str = "AAA"
      · subst h1
        rw [show livePrices pricesCheap "AAA" = some 100 from by decide] at h
        injection h with h
        exact ⟨10000, by rw [← h]; norm_num⟩
      · by_cases h2 : str = "BBB"
        · subst h2
          rw [show livePrices pricesCheap "BBB" = some 5 from by decide] at h
          injection h with h
          exact ⟨500, by rw [← h]; norm_num⟩
        · have hn : pricesCheap str = none := by
            unfold pricesCheap
            rw [if_neg h1, if_neg h2]
          unfold livePrices at h
          rw [hn] at h
          simp at h)
    (by decide)

/-- C3 counterexample: a Low-risk run in which the single surviving stock
ends with its whole stored total of 1000 — the entire investment — although
the Low cap is 0.35 × 1000 = 350: pass 2's reinvestment ignores the weight
cap, so the claim is false as stated. -/
theorem weight_cap_exceeded_by_reinvestment :
    runApp stocksAB pricesCheap sectorsX 1000 Risk.low Experience.beginner =
        Outcome.success [⟨"AAA", 100, 10, 1000, "X"⟩] [("X", 1000)] 0
          ⟨1000, 1000, 0, 1, Risk.low, Experience.beginner⟩ ∧
      maxStockWeight Risk.low * 1000 < (⟨"AAA", 100, 10, 1000, "X"⟩ : Line).total := by
  constructor
  · decide
  · decide

/-- C3 amended: the weight cap holds for what pass 1 allocates — every line
pass 1 emits has cost (quantity × live price) at most the profile cap times
the investment amount; pass 2 reinvestment may then exceed this. -/
theorem pass1_respects_weight_cap
    (raw : String → Option ℚ) (sectors : String → Option String) (risk : Risk)
    (inv ts cash : ℚ) (target : List StockRow) (sa : List (String × ℚ)) (l : Line)
    (hinv : 0 ≤ inv) (hcash : 0 ≤ cash)
    (hl : l ∈ (pass1 raw sectors risk inv ts target cash sa).1) :
    (l.qty : ℚ) * priceOf raw l.stock ≤ maxStockWeight risk * inv :=
  ((pass1_main raw sectors risk inv ts hinv target cash sa hcash).2.2.2 l hl).2.2.2.1

/-- C3 amended witness: the pass-1 line (3 units at 100) stays within
0.35 × 1000. -/
theorem pass1_respects_weight_cap_witness :
    ((3 : ℤ) : ℚ) * priceOf pricesCheap "AAA" ≤ maxStockWeight Risk.low * 1000 :=
  pass1_respects_weight_cap pricesCheap sectorsX Risk.low 1000 40 1000
    [⟨"AAA", 100, 0, 0, 0⟩] [] ⟨"AAA", 100, 3, 300, "X"⟩
    (by norm_num) (by norm_num) (by decide)

/-- C4 counterexample: the claim's existential is refuted outright — no
input whatsoever leaves a successful run with leftover cash at or above the
price of a surviving stock, because every full inner sweep drives cash below
every surviving price and prices never change between outer iterations. -/
theorem no_input_strands_buyable_leftover : C4Claim = False := by
  refine eq_false ?_
  rintro ⟨stocks, raw, sectors, inv, risk, lvl, pf, sa, cash, s, l, hrun, hl, hle⟩
  exact absurd (success_leftover_lt_prices hrun l hl) (not_lt.2 hle)

/-- C4 amended: the pass-2 early exit does guarantee whole-unit cash
exhaustion — after every successful run, leftover cash is strictly below the
live price of every surviving portfolio stock. -/
theorem leftover_cash_below_every_surviving_price
    (stocks : List StockRow) (raw : String → Option ℚ) (sectors : String → Option String)
    (inv : ℚ) (risk : Risk) (lvl : Experience)
    (pf : List Line) (sa : List (String × ℚ)) (cash : ℚ) (s : Summary) (l : Line)
    (hrun : runApp stocks raw sectors inv risk lvl = Outcome.success pf sa cash s)
    (hl : l ∈ pf) :
    cash < priceOf raw l.stock :=
  success_leftover_lt_prices hrun l hl

/-- C4 amended witness: the concrete successful run ends with leftover 0,
strictly below the surviving stock's price 100. -/
theorem leftover_cash_below_every_surviving_price_witness :
    (0 : ℚ) < priceOf pricesCheap "AAA" :=
  leftover_cash_below_every_surviving_price stocksAB pricesCheap sectorsX 1000 Risk.low
    Experience.beginner [⟨"AAA", 100, 10, 1000, "X"⟩] [("X", 1000)] 0
    ⟨1000, 1000, 0, 1, Risk.low, Experience.beginner⟩ ⟨"AAA", 100, 10, 1000, "X"⟩
    (by decide) (by decide)

/-- Pass 1 agrees with the spec's §4.4 wording of it whenever the selected
scores are non-negative relative to the total (then a non-positive quantity
is exactly a zero quantity, the one textual difference). -/
lemma pass1_eq_spec (raw : String → Option ℚ) (sectors : String → Option String) (risk : Risk)
    (inv ts : ℚ) (hinv : 0 ≤ inv) :
    ∀ (target : List StockRow) (cash : ℚ) (sa : List (String × ℚ)), 0 ≤ cash →
      (∀ r ∈ target, 0 ≤ score_stock r risk / ts) →
      pass1 raw sectors risk inv ts target cash sa
        = pass1Spec raw sectors risk inv ts target cash sa := by
  intro target
  induction target with
  | nil => intro cash sa _ _; rw [pass1, pass1Spec]
  | cons r rest ih =>
    intro cash sa hcash hsc
    rw [pass1, pass1Spec]
    dsimp only
    set price := priceOf raw r.symbol with hprice
    set weight := min (score_stock r risk / ts) (maxStockWeight risk) with hweight
    set alloc := min (weight * inv) cash with halloc
    set qty := Int.floor (alloc / price) with hqtydef
    have hw0 : 0 ≤ weight := by
      rw [hweight]
      exact le_min (hsc r (List.mem_cons_self _ _)) (le_of_lt (maxStockWeight_pos risk))
    have hpnn : 0 ≤ price := by rw [hprice]; exact priceOf_nonneg raw r.symbol
    have halloc0 : 0 ≤ alloc := by
      rw [halloc]
      exact le_min (mul_nonneg hw0 hinv) hcash
    have hq0 : 0 ≤ qty := by
      rw [hqtydef]
      exact Int.floor_nonneg.2 (div_nonneg halloc0 hpnn)
    have hsctail : ∀ x ∈ rest, 0 ≤ score_stock x risk / ts :=
      fun x hx => hsc x (List.mem_cons_of_mem _ hx)
    by_cases hq : qty ≤ 0
    · rw [if_pos hq, if_pos (by omega : qty = 0)]
      exact ih cash sa hcash hsctail
    · rw [if_neg hq, if_neg (by omega : ¬ qty = 0)]
      have hppos : 0 < price := by
        refine @price_pos_of_floor_pos alloc price hpnn ?_
        rw [← hqtydef]; omega
      have hcost_le : (qty : ℚ) * price ≤ alloc := by
        rw [hqtydef]; exact floor_units_cost_le hppos
      have hcash' : 0 ≤ cash - (qty : ℚ) * price := by
        have : alloc ≤ cash := by rw [halloc]; exact min_le_right _ _
        linarith
      rw [ih (cash - (qty : ℚ) * price)
        (bumpSector sa (sectorOf sectors r.symbol) ((qty : ℚ) * price)) hcash' hsctail]

/-- C8: pass 1 computes exactly the weight/amount/floor recipe of §4.4 (the
spec-worded `pass1Spec`), a dropped stock never reappears (the final stock
list is exactly pass 1's stock list), and every line of a successful run's
final portfolio has quantity at least 1. -/
theorem pass1_described_and_final_quantities_positive :
    (∀ (raw : String → Option ℚ) (sectors : String → Option String) (risk : Risk)
        (inv ts cash : ℚ) (target : List StockRow) (sa : List (String × ℚ)),
        0 ≤ inv → 0 ≤ cash → (∀ r ∈ target, 0 ≤ score_stock r risk / ts) →
        pass1 raw sectors risk inv ts target cash sa
          = pass1Spec raw sectors risk inv ts target cash sa) ∧
      ∀ (stocks : List StockRow) (raw : String → Option ℚ)
          (sectors : String → Option String) (inv : ℚ) (risk : Risk) (lvl : Experience)
          (pf : List Line) (sa : List (String × ℚ)) (cash : ℚ) (s : Summary),
          runApp stocks raw sectors inv risk lvl = Outcome.success pf sa cash s →
          pf.map Line.stock = (pass1Result stocks raw sectors risk inv).1.map Line.stock ∧
            ∀ l ∈ pf, 1 ≤ l.qty := by
  constructor
  · intro raw sectors risk inv ts cash target sa hinv hcash hsc
    exact pass1_eq_spec raw sectors risk inv ts hinv target cash sa hcash hsc
  · intro stocks raw sectors inv risk lvl pf sa cash s hrun
    obtain ⟨hge, res, hp2, hpf, hsa, hcash, hne⟩ := runApp_success_elim hrun
    have hinv : 0 ≤ inv := le_trans (minRequiredInvestment_nonneg stocks raw risk) hge
    obtain ⟨p1nn, -, p1lines⟩ := @pass1Result_lines stocks raw sectors risk inv hinv
    obtain ⟨-, -, -, h4, h5, -⟩ :=
      pass2_main raw (targetStocks stocks raw sectors risk)
        (pass1Result stocks raw sectors risk inv).1
        (pass1Result stocks raw sectors risk inv).2.1
        (pass1Result stocks raw sectors risk inv).2.2 p1nn res hp2
    constructor
    · rw [← hpf]; exact h4
    · intro l hl
      have hl' : l ∈ res.1 := by rw [hpf]; exact hl
      obtain ⟨l0, hl0, -, -, hq⟩ := h5 l hl'
      exact le_trans (p1lines l0 hl0).1 hq

/-- C8 witness: the spec-recipe equality at a concrete pass-1 input, and
quantity ≥ 1 for the concrete successful run's single line. -/
theorem pass1_described_and_final_quantities_positive_witness :
    pass1 pricesCheap sectorsX Risk.low 1000 40 [⟨"AAA", 100, 0, 0, 0⟩] 1000 []
        = pass1Spec pricesCheap sectorsX Risk.low 1000 40 [⟨"AAA", 100, 0, 0, 0⟩] 1000 [] ∧
      1 ≤ (⟨"AAA", 100, 10, 1000, "X"⟩ : Line).qty := by
  constructor
  · exact pass1_described_and_final_quantities_positive.1 pricesCheap sectorsX Risk.low
      1000 40 1000 [⟨"AAA", 100, 0, 0, 0⟩] [] (by norm_num) (by norm_num) (by decide)
  · exact (pass1_described_and_final_quantities_positive.2 stocksAB pricesCheap sectorsX
      1000 Risk.low Experience.beginner [⟨"AAA", 100, 10, 1000, "X"⟩] [("X", 1000)] 0
      ⟨1000, 1000, 0, 1, Risk.low, Experience.beginner⟩ (by decide)).2
      ⟨"AAA", 100, 10, 1000, "X"⟩ (by decide)

end Nifty50
